import Mathlib

/-!
Verification development for the chunky streaming pipeline
(tokenize → accumulate → rotate).

Embedded source files:

* `src/TokenizerStream.ts` — a Transform stream that keeps a pending text
  buffer, splits it on the delimiter regex (default `/\s+/`), pushes every
  piece except the last as a token, and keeps the last piece as the new
  buffer; `_flush` pushes the pending buffer as the final token when it is
  non-empty.
* `src/ChunkStream.ts` — the chunk rotator: a Writable that tracks running
  counters, lazily opens a numbered output file on the first token of each
  chunk, writes the tokens joined by the output delimiter, and rotates
  (closes the file and increments the chunk index) when a token arrives
  while the word counter is a positive multiple of the threshold.

Modelling conventions:

* Text is `List Char`; `Buffer.byteLength` of a fragment is modelled by its
  character count (exact for single-byte encodings).
* The regex character class `\s` is modelled by `Char.isWhitespace`, and the
  semantics of JavaScript `String.prototype.split(/\s+/)` by `splitWs`
  below (maximal whitespace runs are separators; a leading or trailing run
  contributes an empty piece; the empty string splits to `[""]`).
* `os.EOL` is modelled as `"\n"`.
* The Node filesystem is modelled by `FileSystem`: a set of existing
  directories plus a set of paths blocked by a non-directory entry;
  `fs.mkdirSync(dir, { recursive: true })` succeeds when the directory
  already exists and fails when the path is blocked.
* Caller-supplied lifecycle callbacks may throw; a throwing callback is a
  function returning `Except Unit Unit` with value `.error ()`.  The
  source wraps every callback invocation in `try { ... } catch { /* ignore */ }`,
  modelled by `callIgnore`, whose result is discarded.
-/

/-! ## Tokenizer (src/TokenizerStream.ts) -/

/-- A list of characters containing no whitespace. -/
def noWs (s : List Char) : Prop := ∀ c ∈ s, c.isWhitespace = false

instance (s : List Char) : Decidable (noWs s) := by
  unfold noWs; infer_instance

/-- Worker for `splitWs`.  `mode = false` means we are accumulating the
current piece (held reversed in `acc`); `mode = true` means the previous
character was whitespace and we are inside a separator run. -/
def splitWsAux : Bool → List Char → List Char → List (List Char)
  | true, _, [] => [[]]
  | false, acc, [] => [acc.reverse]
  | true, acc, c :: rest =>
    if c.isWhitespace then splitWsAux true acc rest
    else splitWsAux false [c] rest
  | false, acc, c :: rest =>
    if c.isWhitespace then acc.reverse :: splitWsAux true [] rest
    else splitWsAux false (c :: acc) rest

/-- JavaScript `s.split(/\s+/)` on a list of characters: the list of pieces
between maximal whitespace runs, including the empty pieces produced by a
leading or a trailing run (`"".split(/\s+/)` is `[""]`, `" ".split(/\s+/)`
is `["", ""]`, `"a  b".split(/\s+/)` is `["a", "b"]`). -/
def splitWs (s : List Char) : List (List Char) := splitWsAux false [] s

example : splitWs [] = [[]] := by decide
example : splitWs [' '] = [[], []] := by decide
example : splitWs ['a', ' ', 'b'] = [['a'], ['b']] := by decide
example : splitWs ['a', ' ', ' ', 'b'] = [['a'], ['b']] := by decide
example : splitWs [' ', 'a', ' '] = [[], ['a'], []] := by decide

/-- The tokenizer's mutable state: the pending buffer
(`private buffer: string = ''`). -/
structure TokState where
  buffer : List Char
deriving DecidableEq

/-- `TokenizerStream._transform`, parameterized by the split semantics of the
configured delimiter:
`this.buffer += chunk; const tokens = this.buffer.split(this.delimiter);`
`this.buffer = tokens.pop() || ''; for (token of tokens) if (token.length > 0) this.push(token)`.
Returns the new state together with the pushed tokens. -/
def tsTransform (split : List Char → List (List Char)) (st : TokState)
    (chunk : List Char) : TokState × List (List Char) :=
  let tokens := split (st.buffer ++ chunk)
  (⟨(tokens.getLast?).getD []⟩,
   tokens.dropLast.filter (fun t => decide (0 < t.length)))

/-- `TokenizerStream._flush`: pushes the pending buffer as the final token
when it is non-empty.  Note the source does not reset `this.buffer`, so the
state is returned unchanged. -/
def tsFlush (st : TokState) : TokState × List (List Char) :=
  if 0 < st.buffer.length then (st, [st.buffer]) else (st, [])

/-- Feed a list of fragments through `_transform` one at a time, collecting
the pushed tokens in order. -/
def feedAll (split : List Char → List (List Char)) :
    TokState → List (List Char) → TokState × List (List Char)
  | st, [] => (st, [])
  | st, f :: fs =>
    let p := tsTransform split st f
    let q := feedAll split p.1 fs
    (q.1, p.2 ++ q.2)

/-- A whole tokenizer run: start from the empty buffer, feed every fragment
through `_transform`, then call `_flush` exactly once; the result is the
ordered sequence of all pushed tokens. -/
def runTokens (split : List Char → List (List Char))
    (frags : List (List Char)) : List (List Char) :=
  let p := feedAll split ⟨[]⟩ frags
  p.2 ++ (tsFlush p.1).2

example :
    runTokens splitWs [['h', 'e', 'l'], ['l', 'o', ' ', 'w', 'o', 'r'], ['l', 'd']]
      = [['h', 'e', 'l', 'l', 'o'], ['w', 'o', 'r', 'l', 'd']] := by decide
example : runTokens splitWs [[' ', ' '], ['\t', ' ']] = [] := by decide

/-! ## Canonical character-level tokenizer

A proof device: the obvious one-character-at-a-time whitespace tokenizer.
The split-and-hold-last-piece algorithm of `_transform` is proved equal to
it, which yields fragmentation invariance, since a character fold does not
depend on how its input is cut into fragments. -/

/-- One step of the canonical tokenizer: state is (the token accumulated so far,
tokens emitted so far). -/
def tokStep (st : List Char × List (List Char)) (c : Char) :
    List Char × List (List Char) :=
  if c.isWhitespace then ([], st.2 ++ (if st.1 = [] then [] else [st.1]))
  else (st.1 ++ [c], st.2)

/-- Canonical whitespace tokenization of a complete text. -/
def wsTokens (s : List Char) : List (List Char) :=
  let p := s.foldl tokStep ([], [])
  p.2 ++ (if p.1 = [] then [] else [p.1])

theorem splitWsAux_ne_nil (s : List Char) :
    ∀ (mode : Bool) (acc : List Char), splitWsAux mode acc s ≠ [] := by
  induction s with
  | nil => intro mode acc; cases mode <;> simp [splitWsAux]
  | cons c rest ih =>
    intro mode acc
    cases mode <;> simp only [splitWsAux] <;> by_cases hc : c.isWhitespace <;>
      simp [hc, ih]

theorem foldl_tokStep_out (s : List Char) :
    ∀ (cur : List Char) (out : List (List Char)),
      s.foldl tokStep (cur, out) =
        ((s.foldl tokStep (cur, [])).1, out ++ (s.foldl tokStep (cur, [])).2) := by
  induction s with
  | nil => intro cur out; simp
  | cons c rest ih =>
    intro cur out
    by_cases hc : c.isWhitespace
    · simp only [List.foldl_cons, tokStep, hc, if_true, List.nil_append]
      rw [ih [] (out ++ if cur = [] then [] else [cur]),
        ih [] (if cur = [] then [] else [cur])]
      simp [List.append_assoc]
    · simp only [List.foldl_cons, tokStep, hc, if_false]
      exact ih (cur ++ [c]) out

theorem splitWsAux_foldl (s : List Char) :
    ∀ acc : List Char,
      (s.foldl tokStep (acc.reverse, []) =
        (((splitWsAux false acc s).getLast?).getD [],
         (splitWsAux false acc s).dropLast.filter (fun t => decide (0 < t.length)))) ∧
      (s.foldl tokStep ([], []) =
        (((splitWsAux true acc s).getLast?).getD [],
         (splitWsAux true acc s).dropLast.filter (fun t => decide (0 < t.length)))) := by
  induction s with
  | nil =>
    intro acc
    exact ⟨by simp [splitWsAux], by simp [splitWsAux]⟩
  | cons c rest ih =>
    intro acc
    by_cases hc : c.isWhitespace
    · constructor
      · have hne : splitWsAux true ([] : List Char) rest ≠ [] :=
          splitWsAux_ne_nil rest true []
        obtain ⟨b, B, hB⟩ : ∃ b B, splitWsAux true ([] : List Char) rest = b :: B := by
          cases hEq : splitWsAux true ([] : List Char) rest with
          | nil => exact absurd hEq hne
          | cons b B => exact ⟨b, B, rfl⟩
        simp only [List.foldl_cons, tokStep, hc, if_true, splitWsAux, List.nil_append]
        rw [foldl_tokStep_out rest [] (if acc.reverse = [] then [] else [acc.reverse]),
          (ih []).2, hB]
        by_cases ha : acc = []
        · simp [ha]
        · have hne2 : acc.reverse ≠ [] := fun hEq => ha (List.reverse_eq_nil_iff.mp hEq)
          have hpos : decide (0 < acc.reverse.length) = true := by
            rw [decide_eq_true_eq, List.length_reverse, List.length_pos]
            exact ha
          rw [if_neg hne2, List.getLast?_cons_cons, List.dropLast_cons₂,
            List.filter_cons, hpos, if_pos rfl]
          simp
      · simp only [List.foldl_cons, tokStep, hc, if_true, splitWsAux, List.nil_append]
        simpa using (ih acc).2
    · constructor
      · simp only [List.foldl_cons, tokStep, hc, if_false, splitWsAux]
        have hrc : acc.reverse ++ [c] = (c :: acc).reverse := (List.reverse_cons c acc).symm
        rw [hrc]
        exact (ih (c :: acc)).1
      · simp only [List.foldl_cons, tokStep, hc, if_false, splitWsAux, List.nil_append]
        have h1 : ([c] : List Char) = ([c] : List Char).reverse := by simp
        rw [h1]
        exact (ih [c]).1

theorem splitWsAux_prepend (pre : List Char) :
    ∀ (acc f : List Char), noWs pre →
      splitWsAux false acc (pre ++ f) = splitWsAux false (pre.reverse ++ acc) f := by
  induction pre with
  | nil => intro acc f _; simp
  | cons c pre' ih =>
    intro acc f h
    have hc : c.isWhitespace = false := h c (List.mem_cons_self c pre')
    simp only [List.cons_append, splitWsAux, hc, Bool.false_eq_true, if_false,
      List.append_eq]
    rw [ih (c :: acc) f (fun d hd => h d (List.mem_cons_of_mem c hd))]
    congr 1
    simp [List.reverse_cons, List.append_assoc]

theorem splitWsAux_pieces_noWs (s : List Char) :
    ∀ (mode : Bool) (acc : List Char), noWs acc →
      ∀ p ∈ splitWsAux mode acc s, noWs p := by
  induction s with
  | nil =>
    intro mode acc hacc p hp
    cases mode with
    | false =>
      simp [splitWsAux] at hp
      subst hp
      intro c hcm
      exact hacc c (List.mem_reverse.mp hcm)
    | true =>
      simp [splitWsAux] at hp
      subst hp
      intro c hcm
      exact absurd hcm (List.not_mem_nil c)
  | cons c rest ih =>
    intro mode acc hacc p hp
    cases mode with
    | true =>
      simp only [splitWsAux] at hp
      by_cases hc : c.isWhitespace
      · rw [if_pos hc] at hp
        exact ih true acc hacc p hp
      · rw [if_neg hc] at hp
        refine ih false [c] ?_ p hp
        intro d hd
        rcases List.mem_cons.mp hd with h1 | h2
        · subst h1; exact Bool.eq_false_iff.mpr hc
        · exact absurd h2 (List.not_mem_nil d)
    | false =>
      simp only [splitWsAux] at hp
      by_cases hc : c.isWhitespace
      · rw [if_pos hc] at hp
        rcases List.mem_cons.mp hp with h1 | h2
        · subst h1
          intro d hd
          exact hacc d (List.mem_reverse.mp hd)
        · exact ih true [] (fun d hd => absurd hd (List.not_mem_nil d)) p h2
      · rw [if_neg hc] at hp
        refine ih false (c :: acc) ?_ p hp
        intro d hd
        rcases List.mem_cons.mp hd with h1 | h2
        · subst h1; exact Bool.eq_false_iff.mpr hc
        · exact hacc d h2

theorem feedAll_foldl (frags : List (List Char)) :
    ∀ st : TokState, noWs st.buffer →
      (feedAll splitWs st frags).1.buffer
          = ((frags.flatten).foldl tokStep (st.buffer, [])).1 ∧
      (feedAll splitWs st frags).2
          = ((frags.flatten).foldl tokStep (st.buffer, [])).2 ∧
      noWs (feedAll splitWs st frags).1.buffer := by
  induction frags with
  | nil => intro st h; exact ⟨rfl, rfl, h⟩
  | cons f fs ih =>
    intro st h
    have hsplit : splitWs (st.buffer ++ f) = splitWsAux false st.buffer.reverse f := by
      unfold splitWs
      rw [splitWsAux_prepend st.buffer [] f h]
      simp
    have hfold := (splitWsAux_foldl f st.buffer.reverse).1
    rw [List.reverse_reverse] at hfold
    have hp1 : (tsTransform splitWs st f).1.buffer = (f.foldl tokStep (st.buffer, [])).1 := by
      simp only [tsTransform, hsplit, hfold]
    have hp2 : (tsTransform splitWs st f).2 = (f.foldl tokStep (st.buffer, [])).2 := by
      simp only [tsTransform, hsplit, hfold]
    have hnoWs : noWs (tsTransform splitWs st f).1.buffer := by
      simp only [tsTransform, hsplit]
      cases hA : (splitWsAux false st.buffer.reverse f).getLast? with
      | none =>
        intro c hcm
        exact absurd hcm (List.not_mem_nil c)
      | some x =>
        have hx : x ∈ splitWsAux false st.buffer.reverse f :=
          List.mem_of_getLast?_eq_some hA
        have hrev : noWs st.buffer.reverse := fun d hd => h d (List.mem_reverse.mp hd)
        simpa using splitWsAux_pieces_noWs f false st.buffer.reverse hrev x hx
    obtain ⟨ih1, ih2, ih3⟩ := ih (tsTransform splitWs st f).1 hnoWs
    have hpair : f.foldl tokStep (st.buffer, [])
        = ((tsTransform splitWs st f).1.buffer, (tsTransform splitWs st f).2) :=
      Prod.ext_iff.mpr ⟨hp1.symm, hp2.symm⟩
    have hflat : (f :: fs).flatten = f ++ fs.flatten := by simp
    refine ⟨?_, ?_, ?_⟩
    · show (feedAll splitWs (tsTransform splitWs st f).1 fs).1.buffer = _
      rw [ih1, hflat, List.foldl_append, hpair,
        foldl_tokStep_out fs.flatten (tsTransform splitWs st f).1.buffer
          (tsTransform splitWs st f).2]
    · show (tsTransform splitWs st f).2 ++ (feedAll splitWs (tsTransform splitWs st f).1 fs).2 = _
      rw [ih2, hflat, List.foldl_append, hpair,
        foldl_tokStep_out fs.flatten (tsTransform splitWs st f).1.buffer
          (tsTransform splitWs st f).2]
    · exact ih3

theorem runTokens_eq_wsTokens (frags : List (List Char)) :
    runTokens splitWs frags = wsTokens frags.flatten := by
  obtain ⟨h1, h2, _⟩ :=
    feedAll_foldl frags ⟨[]⟩ (fun c hc => absurd hc (List.not_mem_nil c))
  show (feedAll splitWs ⟨[]⟩ frags).2 ++ (tsFlush (feedAll splitWs ⟨[]⟩ frags).1).2
      = (frags.flatten.foldl tokStep ([], [])).2
        ++ (if (frags.flatten.foldl tokStep ([], [])).1 = [] then []
            else [(frags.flatten.foldl tokStep ([], [])).1])
  rw [h2]
  congr 1
  unfold tsFlush
  rw [h1]
  by_cases hx : (frags.flatten.foldl tokStep ([], [])).1 = []
  · simp [hx]
  · simp [hx, List.length_pos]

theorem feedAll_no_empty (split : List Char → List (List Char))
    (frags : List (List Char)) :
    ∀ (st : TokState) (t : List Char), t ∈ (feedAll split st frags).2 → t ≠ [] := by
  induction frags with
  | nil =>
    intro st t ht
    simp [feedAll] at ht
  | cons f fs ih =>
    intro st t ht
    rcases List.mem_append.mp ht with h1 | h2
    · have h1' : t ∈ (split (st.buffer ++ f)).dropLast.filter
          (fun t => decide (0 < t.length)) := h1
      have := (List.mem_filter.mp h1').2
      exact List.length_pos.mp (by simpa using this)
    · exact ih (tsTransform split st f).1 t h2

/-- C1: Token-boundary invariance.  For every input text and every way of
splitting it into a sequence of fragments, feeding the fragments one at a
time to the tokenizer via `_transform` followed by one `_flush` yields
exactly the same ordered token sequence as feeding the entire text
(`frags.flatten`) as a single fragment followed by `_flush`.  Proved for
the default delimiter `/\s+/`, whose split semantics is `splitWs`. -/
theorem token_boundary_invariance (frags : List (List Char)) :
    runTokens splitWs frags = runTokens splitWs [frags.flatten] := by
  rw [runTokens_eq_wsTokens frags, runTokens_eq_wsTokens [frags.flatten]]
  simp

/-- C3: No empty tokens.  For every fragmentation of every input — and for
any delimiter split semantics whatsoever — the token sequence emitted
across all `_transform` calls and the final `_flush` never contains a
zero-length token. -/
theorem no_empty_tokens (split : List Char → List (List Char))
    (frags : List (List Char)) (t : List Char)
    (ht : t ∈ runTokens split frags) : t ≠ [] := by
  rcases List.mem_append.mp ht with h1 | h2
  · exact feedAll_no_empty split frags ⟨[]⟩ t h1
  · by_cases hb : 0 < (feedAll split ⟨[]⟩ frags).1.buffer.length
    · have h2' : t ∈ [(feedAll split ⟨[]⟩ frags).1.buffer] := by
        simpa [tsFlush, hb] using h2
      have ht' : t = (feedAll split ⟨[]⟩ frags).1.buffer := by simpa using h2'
      rw [ht']
      exact List.length_pos.mp hb
    · exact absurd h2 (by simp [tsFlush, hb])

theorem no_empty_tokens_witness :
    ['a'] ∈ runTokens splitWs [['a', ' ', ' ', 'b', ' ']] ∧ ['a'] ≠ [] :=
  ⟨by decide, no_empty_tokens splitWs [['a', ' ', ' ', 'b', ' ']] ['a'] (by decide)⟩

/-- C8 counterexample: the claim states that after `_flush` emits the
pending buffer, "the buffer is then cleared".  The source of `_flush`
pushes `this.buffer` but never resets it: flushing the tokenizer state
whose buffer holds "a" leaves the buffer non-empty. -/
theorem flush_buffer_not_cleared : (tsFlush ⟨['a']⟩).1.buffer ≠ [] := by decide

/-- C8 amended: `_flush` is invoked exactly once, after the final fragment
(this is how `runTokens` is defined).  If the pending buffer is non-empty
it is emitted as the final token, and if it is empty no token is emitted;
in both cases the buffer is left unchanged — the source does not clear it,
which is unobservable because no call follows `_flush`. -/
theorem flush_semantics (st : TokState) :
    (0 < st.buffer.length → tsFlush st = (st, [st.buffer])) ∧
    (st.buffer.length = 0 → tsFlush st = (st, [])) := by
  constructor
  · intro h
    simp [tsFlush, h]
  · intro h
    simp [tsFlush, h]

theorem flush_semantics_witness :
    tsFlush ⟨['a']⟩ = (⟨['a']⟩, [['a']]) ∧ tsFlush ⟨[]⟩ = (⟨[]⟩, []) :=
  ⟨(flush_semantics ⟨['a']⟩).1 (by decide), (flush_semantics ⟨[]⟩).2 (by decide)⟩

/-! ## Chunk rotator (src/ChunkStream.ts)

The rotator state machine is embedded as a pure state-transition system.
All filesystem writes become data in the state: each created chunk file
records the exact sequence of strings passed to `outputStream.write` (its
`writes`) alongside the tokens written into it (its `tokens`); the file's
on-disk content is the concatenation of its `writes`.  The byte counting
of `_write` and the token pipeline are modelled sequentially: `_write`
accumulates `Buffer.byteLength` per fragment and synchronously drives the
tokenizer, whose emitted words drive `processWord`; the two interleave in
the source but touch disjoint state, so the final state is the same. -/

/-- Running counters reported by `ChunkStream.getStats` — the fields the
specification constrains.  The source additionally reports
`currentMemoryUsage` and `highWaterMark`, estimates over live runtime
stream buffers, which have no pure meaning and are omitted. -/
structure StreamStats where
  bytesProcessed : Nat
  chunksCreated : Nat
  wordsProcessed : Nat
deriving DecidableEq

/-- Chunk lifecycle states (`enum ChunkOutputStreamState`).  The source
spells the first state name out in full; it is shortened here to Uninit. -/
inductive ChunkOutputStreamState
  | Uninit
  | Open
  | Closed
deriving DecidableEq

/-- Model of the Node filesystem as seen by `fs.mkdirSync(dir, { recursive:
true })`: `dirs` are the directories that exist, `blocked` are the paths at
which a non-directory entry prevents directory creation.  Creating an
existing directory succeeds and changes nothing (the `recursive` option);
creating a blocked path fails; otherwise the directory is created. -/
structure FileSystem where
  dirs : List String
  blocked : List String
deriving DecidableEq

def mkdirRecursive (fsys : FileSystem) (dir : String) : Except Unit FileSystem :=
  if dir ∈ fsys.dirs then Except.ok fsys
  else if dir ∈ fsys.blocked then Except.error ()
  else Except.ok { fsys with dirs := dir :: fsys.dirs }

/-- One chunk file: the exact strings passed to `write` (in order), and the
tokens written into the file (in order). -/
structure ChunkFile where
  writes : List (List Char)
  tokens : List (List Char)
deriving DecidableEq

/-- The mutable fields of `ChunkStream` that the claims concern, plus the
created files and the filesystem.  `outputStream` is `true` when
`this.outputStream` is non-null; writes always target the most recently
created file. -/
structure RotState where
  wordCount : Nat
  chunkCount : Nat
  outputStreamState : ChunkOutputStreamState
  outputStream : Bool
  files : List ChunkFile
  fsys : FileSystem
  bytesProcessed : Nat
deriving DecidableEq

/-- The distinguishable error kinds a run can abort with (`errors.ts`;
the rotator itself only ever constructs `OutputDirectoryError`). -/
inductive RunError
  | outputDirectoryError (path : String)
deriving DecidableEq

deriving instance DecidableEq for Except

/-- `try { cb(arg) } catch (error) { /* ignore */ }` for an optional
caller-supplied callback: the result — including a thrown error — is
discarded. -/
def callIgnore {α : Type} (cb : Option (α → Except Unit Unit)) (a : α) : Unit :=
  match cb with
  | none => ()
  | some f =>
    match f a with
    | Except.ok _ => ()
    | Except.error _ => ()

/-- The per-run configuration of `ChunkStream` (after the constructor has
applied defaults), restricted to what the embedded operations read. -/
structure ChunkConfig where
  outputPath : String
  maxWordsPerChunk : Nat
  fileStem : String
  fileExt : String
  outputDelimiter : List Char
  onStreamOpen : Option (String → Except Unit Unit)
  onStreamClose : Option (String → Except Unit Unit)
  onProgress : Option (Nat → Except Unit Unit)
  onStats : Option (StreamStats → Except Unit Unit)

/-- Apply a function to the last element of the file list (the currently
open chunk file). -/
def modifyLast (g : ChunkFile → ChunkFile) : List ChunkFile → List ChunkFile
  | [] => []
  | [x] => [g x]
  | x :: y :: xs => x :: modifyLast g (y :: xs)

/-- `os.EOL`, modelled as a single newline. -/
def eol : List Char := ['\n']

/-- `(this.chunkCount + 1).toString().padStart(4, '0')`. -/
def padStart4 (n : Nat) : String :=
  let s := toString n
  String.mk (List.replicate (4 - s.length) '0') ++ s

/-- `ChunkStream.filePath()`: `path.join(outDir, stem + '_' + padded + ext)`,
with `path.join` modelled as `/`-separated concatenation. -/
def chunkFilePath (cfg : ChunkConfig) (st : RotState) : String :=
  cfg.outputPath ++ "/" ++ cfg.fileStem ++ "_" ++ padStart4 (st.chunkCount + 1)
    ++ cfg.fileExt

/-- `ChunkStream.makeOutputDirectorySync`: `fs.mkdirSync(this.outputPath,
{ recursive: true })`, wrapping any failure in `OutputDirectoryError`.  An
error aborts the run (the catch in `processWord` destroys the stream), so
the error value carries the state at the moment of the throw. -/
def makeOutputDirectorySync (cfg : ChunkConfig) (st : RotState) :
    Except (RunError × RotState) RotState :=
  match mkdirRecursive st.fsys cfg.outputPath with
  | Except.ok f => Except.ok { st with fsys := f }
  | Except.error _ =>
    Except.error (RunError.outputDirectoryError cfg.outputPath, st)

/-- `ChunkStream.rotateOutputStream`: if a stream is open, write `os.EOL`,
capture the closing file's path, clear the stream reference, increment
`chunkCount`, end the stream and schedule the close notification (isolated
via try/catch); in every case the state becomes Uninit for the next
chunk. -/
def rotateOutputStream (cfg : ChunkConfig) (st : RotState) : RotState :=
  let st1 :=
    if st.outputStream then
      let closePath := chunkFilePath cfg st
      let withEol :=
        modifyLast (fun fl => { fl with writes := fl.writes ++ [eol] }) st.files
      let st' := { st with
        files := withEol,
        outputStream := false,
        chunkCount := st.chunkCount + 1 }
      let _ := callIgnore cfg.onStreamClose closePath
      st'
    else st
  { st1 with outputStreamState := ChunkOutputStreamState.Uninit }

/-- `ChunkStream.openOutputStream`: when the state is Uninit, mark it Open,
ensure the output directory exists (this is the only failing step, and it
precedes file creation), then create the numbered chunk file, initially
empty. -/
def openOutputStream (cfg : ChunkConfig) (st : RotState) :
    Except (RunError × RotState) RotState :=
  if st.outputStreamState = ChunkOutputStreamState.Uninit then
    let st1 := { st with outputStreamState := ChunkOutputStreamState.Open }
    match makeOutputDirectorySync cfg st1 with
    | Except.error e => Except.error e
    | Except.ok st2 =>
      Except.ok { st2 with outputStream := true,
                           files := st2.files ++ [{ writes := [], tokens := [] }] }
  else Except.ok st

/-- The write step inside `processWord`: the first word of a chunk
(`wordCount % maxWordsPerChunk === 0`) is written bare, any other word is
written preceded by the output delimiter. -/
def writeWord (cfg : ChunkConfig) (st : RotState) (word : List Char) : RotState :=
  let w := if st.wordCount % cfg.maxWordsPerChunk = 0 then word
           else cfg.outputDelimiter ++ word
  let g := fun fl =>
    { fl with writes := fl.writes ++ [w], tokens := fl.tokens ++ [word] }
  { st with files := modifyLast g st.files }

/-- The part of `ChunkStream.processWord` after the rotation check: lazily
open when the state is Uninit (firing the isolated open notification and
setting the state to Open); write the word if a stream is open; increment
the counter; fire the isolated progress notification. -/
def processWordPost (cfg : ChunkConfig) (st1 : RotState) (word : List Char) :
    Except (RunError × RotState) RotState :=
  match (if st1.outputStreamState = ChunkOutputStreamState.Uninit then
          match openOutputStream cfg st1 with
          | Except.error e => Except.error e
          | Except.ok s =>
            let _ := callIgnore cfg.onStreamOpen (chunkFilePath cfg s)
            Except.ok { s with outputStreamState := ChunkOutputStreamState.Open }
        else Except.ok st1) with
  | Except.error e => Except.error e
  | Except.ok st2 =>
    let st3 := if st2.outputStream then writeWord cfg st2 word else st2
    let st4 := { st3 with wordCount := st3.wordCount + 1 }
    let _ := callIgnore cfg.onProgress st4.wordCount
    Except.ok st4

/-- `ChunkStream.processWord`: rotate when the token arrives while the
state is Open and the word counter is a positive multiple of the
threshold, then proceed with `processWordPost` (lazy open, write, count,
notify).  Any thrown error (directory creation) is caught by the
surrounding try/catch and destroys the stream, aborting the run with that
error. -/
def processWord (cfg : ChunkConfig) (st0 : RotState) (word : List Char) :
    Except (RunError × RotState) RotState :=
  let st1 := if st0.outputStreamState = ChunkOutputStreamState.Open ∧
                0 < st0.wordCount ∧
                st0.wordCount % cfg.maxWordsPerChunk = 0
             then rotateOutputStream cfg st0 else st0
  processWordPost cfg st1 word

/-- `ChunkStream.closeCurrentChunk` (invoked from the tokenizer's end
event): if the state is Open, mark it Closed, write the trailing `os.EOL`,
clear the stream reference and schedule the isolated close
notification. -/
def closeCurrentChunk (cfg : ChunkConfig) (st : RotState) : RotState :=
  if st.outputStreamState = ChunkOutputStreamState.Open then
    let st1 := { st with outputStreamState := ChunkOutputStreamState.Closed }
    if st1.outputStream then
      let closePath := chunkFilePath cfg st1
      let withEol :=
        modifyLast (fun fl => { fl with writes := fl.writes ++ [eol] }) st1.files
      let st2 := { st1 with files := withEol, outputStream := false }
      let _ := callIgnore cfg.onStreamClose closePath
      st2
    else st1
  else st

/-- Feed the emitted tokens to `processWord` in order, aborting on the
first error (`destroy`). -/
def processWords (cfg : ChunkConfig) :
    RotState → List (List Char) → Except (RunError × RotState) RotState
  | st, [] => Except.ok st
  | st, w :: ws =>
    match processWord cfg st w with
    | Except.error e => Except.error e
    | Except.ok st' => processWords cfg st' ws

/-- The rotator's initial state over a given filesystem. -/
def initState (fsys : FileSystem) : RotState :=
  { wordCount := 0, chunkCount := 0,
    outputStreamState := ChunkOutputStreamState.Uninit,
    outputStream := false, files := [], fsys := fsys, bytesProcessed := 0 }

/-- `ChunkStream.getStats` (pure fields). -/
def getStats (st : RotState) : StreamStats :=
  { bytesProcessed := st.bytesProcessed,
    chunksCreated := st.chunkCount,
    wordsProcessed := st.wordCount }

/-- A whole `ChunkStream` run over a fragmented input: `_write` accumulates
`Buffer.byteLength` of every fragment and fires the throttled, isolated
stats notification; the tokenizer turns the fragments into words that
drive `processWord`; stream end (`_final` / the tokenizer's end event)
closes the current chunk. -/
def runChunkStream (cfg : ChunkConfig) (fsys : FileSystem)
    (frags : List (List Char)) : Except (RunError × RotState) RotState :=
  let st0 := { initState fsys with bytesProcessed := (frags.map List.length).sum }
  let _ := frags.map (fun _ => callIgnore cfg.onStats (getStats st0))
  match processWords cfg st0 (runTokens splitWs frags) with
  | Except.error e => Except.error e
  | Except.ok st => Except.ok (closeCurrentChunk cfg st)

/-- The same configuration with all lifecycle callbacks absent. -/
def stripCallbacks (cfg : ChunkConfig) : ChunkConfig :=
  { cfg with onStreamOpen := none, onStreamClose := none,
             onProgress := none, onStats := none }

/-- The constructor's output-delimiter inference (`ChunkStream`
constructor, lines 72–94): when `options.outputDelimiter` is not supplied,
infer it from `this.delimiter.source`. -/
def inferOutputDelimiter (delimiterSource : String) : String :=
  if delimiterSource = "\\s+" then " "
  else if delimiterSource = "," then ","
  else if delimiterSource = ";" then ";"
  else if delimiterSource = "\\t" then "\t"
  else if delimiterSource = "\n" then "\n"
  else if delimiterSource = "\\|" then "|"
  else " "

/-- The output delimiter chosen by the constructor: the supplied
`options.outputDelimiter` when present, otherwise the inferred one. -/
def constructorOutputDelimiter (optOutputDelimiter : Option String)
    (delimiterSource : String) : String :=
  match optOutputDelimiter with
  | some d => d
  | none => inferOutputDelimiter delimiterSource

/-! ## Rotator lemmas -/

theorem concat_inj {α : Type} {l₁ l₂ : List α} {a b : α}
    (h : l₁ ++ [a] = l₂ ++ [b]) : l₁ = l₂ ∧ a = b := by
  constructor
  · have := congrArg List.dropLast h
    simpa using this
  · have := congrArg List.getLast? h
    simpa using this

theorem modifyLast_concat (g : ChunkFile → ChunkFile) (l : List ChunkFile)
    (x : ChunkFile) : modifyLast g (l ++ [x]) = l ++ [g x] := by
  induction l with
  | nil => rfl
  | cons a l ih =>
    cases l with
    | nil => rfl
    | cons b l' =>
      calc modifyLast g (a :: b :: l' ++ [x])
          = a :: modifyLast g (b :: l' ++ [x]) := rfl
        _ = a :: (b :: l' ++ [g x]) := by rw [ih]
        _ = (a :: b :: l') ++ [g x] := rfl

theorem modifyLast_map_tokens (g : ChunkFile → ChunkFile)
    (h : ∀ x, (g x).tokens = x.tokens) (l : List ChunkFile) :
    (modifyLast g l).map (fun f => f.tokens.length)
      = l.map (fun f => f.tokens.length) := by
  induction l with
  | nil => rfl
  | cons a l ih =>
    cases l with
    | nil => simp [modifyLast, h]
    | cons b l' =>
      show (a :: modifyLast g (b :: l')).map _ = _
      simp only [List.map_cons]
      rw [ih]
      simp

theorem mkdirRecursive_ok (fsys : FileSystem) (p : String)
    (h : p ∉ fsys.blocked) :
    ∃ f', mkdirRecursive fsys p = Except.ok f' ∧ f'.blocked = fsys.blocked := by
  unfold mkdirRecursive
  by_cases hd : p ∈ fsys.dirs
  · exact ⟨fsys, by rw [if_pos hd], rfl⟩
  · exact ⟨{ fsys with dirs := p :: fsys.dirs }, by rw [if_neg hd, if_neg h], rfl⟩

theorem openOutputStream_ok (cfg : ChunkConfig) (st : RotState)
    (hU : st.outputStreamState = ChunkOutputStreamState.Uninit)
    (hNB : cfg.outputPath ∉ st.fsys.blocked) :
    ∃ f', f'.blocked = st.fsys.blocked ∧
      openOutputStream cfg st = Except.ok
        { st with outputStreamState := ChunkOutputStreamState.Open,
                  fsys := f', outputStream := true,
                  files := st.files ++ [{ writes := [], tokens := [] }] } := by
  obtain ⟨f', hf', hbl⟩ := mkdirRecursive_ok st.fsys cfg.outputPath hNB
  refine ⟨f', hbl, ?_⟩
  unfold openOutputStream makeOutputDirectorySync
  rw [if_pos hU]
  simp only [hf']

theorem processWord_rotateCond (cfg : ChunkConfig) (st : RotState) (w : List Char)
    (hc : st.outputStreamState = ChunkOutputStreamState.Open ∧
      0 < st.wordCount ∧ st.wordCount % cfg.maxWordsPerChunk = 0) :
    processWord cfg st w = processWordPost cfg (rotateOutputStream cfg st) w := by
  simp only [processWord, if_pos hc]

theorem processWord_noRotateCond (cfg : ChunkConfig) (st : RotState) (w : List Char)
    (hc : ¬(st.outputStreamState = ChunkOutputStreamState.Open ∧
      0 < st.wordCount ∧ st.wordCount % cfg.maxWordsPerChunk = 0)) :
    processWord cfg st w = processWordPost cfg st w := by
  simp only [processWord, if_neg hc]

theorem rotateOutputStream_live (cfg : ChunkConfig) (st : RotState)
    (hLive : st.outputStream = true) :
    rotateOutputStream cfg st =
      { st with
        files := modifyLast (fun fl => { fl with writes := fl.writes ++ [eol] })
          st.files,
        outputStream := false,
        chunkCount := st.chunkCount + 1,
        outputStreamState := ChunkOutputStreamState.Uninit } := by
  simp [rotateOutputStream, hLive]

theorem processWordPost_uninit (cfg : ChunkConfig) (st : RotState) (w : List Char)
    (hU : st.outputStreamState = ChunkOutputStreamState.Uninit)
    (hNB : cfg.outputPath ∉ st.fsys.blocked)
    (hmod : st.wordCount % cfg.maxWordsPerChunk = 0) :
    ∃ f', f'.blocked = st.fsys.blocked ∧
      processWordPost cfg st w = Except.ok
        { st with outputStreamState := ChunkOutputStreamState.Open,
                  outputStream := true,
                  fsys := f',
                  files := st.files ++ [{ writes := [w], tokens := [w] }],
                  wordCount := st.wordCount + 1 } := by
  obtain ⟨f', hbl, hopen⟩ := openOutputStream_ok cfg st hU hNB
  refine ⟨f', hbl, ?_⟩
  simp only [processWordPost, if_pos hU, hopen]
  simp [writeWord, hmod, modifyLast_concat]

theorem processWordPost_open (cfg : ChunkConfig) (st : RotState) (w : List Char)
    (hOpen : st.outputStreamState = ChunkOutputStreamState.Open)
    (hLive : st.outputStream = true)
    (hmod : ¬st.wordCount % cfg.maxWordsPerChunk = 0) :
    processWordPost cfg st w = Except.ok
      { st with
        files := modifyLast
          (fun fl => { fl with
            writes := fl.writes ++ [cfg.outputDelimiter ++ w],
            tokens := fl.tokens ++ [w] }) st.files,
        wordCount := st.wordCount + 1 } := by
  have hne : ¬st.outputStreamState = ChunkOutputStreamState.Uninit := by
    rw [hOpen]; exact fun hcon => ChunkOutputStreamState.noConfusion hcon
  simp only [processWordPost, if_neg hne]
  simp [writeWord, hLive, if_neg hmod]

/-- The invariant of a rotator state in the middle of a run: after
`q * maxWordsPerChunk + r` words (`1 ≤ r ≤ maxWordsPerChunk`) the stream is
open, exactly `q` rotations have happened, and the created files hold `q`
full chunks of tokens followed by the current chunk holding `r` tokens. -/
structure InvRun (cfg : ChunkConfig) (st : RotState) (q r : Nat) : Prop where
  stateOpen : st.outputStreamState = ChunkOutputStreamState.Open
  streamLive : st.outputStream = true
  noBlock : cfg.outputPath ∉ st.fsys.blocked
  wc : st.wordCount = q * cfg.maxWordsPerChunk + r
  rpos : 1 ≤ r
  rle : r ≤ cfg.maxWordsPerChunk
  cc : st.chunkCount = q
  sizes : st.files.map (fun f => f.tokens.length)
            = List.replicate q cfg.maxWordsPerChunk ++ [r]

theorem processWord_first (cfg : ChunkConfig) (st : RotState) (w : List Char)
    (hT : 0 < cfg.maxWordsPerChunk)
    (hU : st.outputStreamState = ChunkOutputStreamState.Uninit)
    (hNB : cfg.outputPath ∉ st.fsys.blocked)
    (hwc : st.wordCount = 0) (hcc : st.chunkCount = 0) (hfiles : st.files = []) :
    ∃ st', processWord cfg st w = Except.ok st' ∧ InvRun cfg st' 0 1 := by
  have hmod : st.wordCount % cfg.maxWordsPerChunk = 0 := by rw [hwc]; simp
  have hcond : ¬(st.outputStreamState = ChunkOutputStreamState.Open ∧
      0 < st.wordCount ∧ st.wordCount % cfg.maxWordsPerChunk = 0) := by
    intro hAnd
    rw [hU] at hAnd
    exact absurd hAnd.1 (by decide)
  rw [processWord_noRotateCond cfg st w hcond]
  obtain ⟨f', hbl, hpost⟩ := processWordPost_uninit cfg st w hU hNB hmod
  rw [hpost]
  refine ⟨_, rfl, ?_⟩
  refine ⟨rfl, rfl, ?_, ?_, le_refl 1, hT, ?_, ?_⟩
  · show cfg.outputPath ∉ f'.blocked
    rw [hbl]
    exact hNB
  · show st.wordCount + 1 = 0 * cfg.maxWordsPerChunk + 1
    rw [hwc]
    simp
  · exact hcc
  · show (st.files ++ [({ writes := [w], tokens := [w] } : ChunkFile)]).map
        (fun (f : ChunkFile) => f.tokens.length)
      = List.replicate 0 cfg.maxWordsPerChunk ++ [1]
    rw [hfiles]
    simp

theorem processWord_step (cfg : ChunkConfig) (st : RotState) (q r : Nat)
    (w : List Char) (hT : 0 < cfg.maxWordsPerChunk) (h : InvRun cfg st q r) :
    ∃ st', processWord cfg st w = Except.ok st' ∧
      (if r = cfg.maxWordsPerChunk then InvRun cfg st' (q + 1) 1
       else InvRun cfg st' q (r + 1)) := by
  by_cases hr : r = cfg.maxWordsPerChunk
  · -- the incoming token finds the counter at a positive multiple: rotate
    have hmod : st.wordCount % cfg.maxWordsPerChunk = 0 := by
      rw [h.wc, hr, ← Nat.succ_mul]
      exact Nat.mul_mod_left _ _
    have hpos : 0 < st.wordCount := by
      have := h.rpos
      rw [h.wc]
      omega
    rw [processWord_rotateCond cfg st w ⟨h.stateOpen, hpos, hmod⟩,
      rotateOutputStream_live cfg st h.streamLive]
    obtain ⟨f', hbl, hpost⟩ := processWordPost_uninit cfg
      ({ st with
          files := modifyLast (fun fl => { fl with writes := fl.writes ++ [eol] })
            st.files,
          outputStream := false,
          chunkCount := st.chunkCount + 1,
          outputStreamState := ChunkOutputStreamState.Uninit }) w rfl h.noBlock hmod
    rw [hpost]
    refine ⟨_, rfl, ?_⟩
    rw [if_pos hr]
    refine ⟨rfl, rfl, ?_, ?_, le_refl 1, hT, ?_, ?_⟩
    · show cfg.outputPath ∉ f'.blocked
      rw [hbl]
      exact h.noBlock
    · show st.wordCount + 1 = (q + 1) * cfg.maxWordsPerChunk + 1
      rw [h.wc, hr]
      ring
    · show st.chunkCount + 1 = q + 1
      rw [h.cc]
    · show (modifyLast (fun fl => { fl with writes := fl.writes ++ [eol] }) st.files
          ++ [({ writes := [w], tokens := [w] } : ChunkFile)]).map
            (fun (f : ChunkFile) => f.tokens.length)
        = List.replicate (q + 1) cfg.maxWordsPerChunk ++ [1]
      rw [List.map_append,
        modifyLast_map_tokens (fun fl => { fl with writes := fl.writes ++ [eol] })
          (fun x => rfl),
        h.sizes, hr, ← List.replicate_succ']
      simp
  · -- mid-chunk token: no rotation, append to the open chunk
    have hlt : r < cfg.maxWordsPerChunk := lt_of_le_of_ne h.rle hr
    have hmod : ¬st.wordCount % cfg.maxWordsPerChunk = 0 := by
      rw [h.wc, Nat.mul_comm, Nat.mul_add_mod, Nat.mod_eq_of_lt hlt]
      have := h.rpos
      omega
    rw [processWord_noRotateCond cfg st w (fun hAnd => hmod hAnd.2.2),
      processWordPost_open cfg st w h.stateOpen h.streamLive hmod]
    refine ⟨_, rfl, ?_⟩
    rw [if_neg hr]
    have hfne : st.files ≠ [] := by
      intro hnil
      have := h.sizes
      rw [hnil] at this
      exact absurd this.symm (by simp)
    rcases List.eq_nil_or_concat' st.files with hnil | ⟨front, lastf, hdec⟩
    · exact absurd hnil hfne
    have hmap := h.sizes
    rw [hdec, List.map_append] at hmap
    obtain ⟨hfront, hlast⟩ := concat_inj hmap
    refine ⟨h.stateOpen, h.streamLive, h.noBlock, ?_, ?_, hlt, h.cc, ?_⟩
    · show st.wordCount + 1 = q * cfg.maxWordsPerChunk + (r + 1)
      rw [h.wc]
      exact Nat.add_assoc _ _ _
    · omega
    · show (modifyLast _ st.files).map (fun f => f.tokens.length)
        = List.replicate q cfg.maxWordsPerChunk ++ [r + 1]
      rw [hdec, modifyLast_concat, List.map_append, hfront]
      simp at hlast
      simp [hlast]

theorem processWords_cons_ok (cfg : ChunkConfig) (st : RotState) (w : List Char)
    (ws : List (List Char)) (st1 : RotState)
    (h1 : processWord cfg st w = Except.ok st1) :
    processWords cfg st (w :: ws) = processWords cfg st1 ws := by
  simp only [processWords, h1]

theorem processWords_inv (ws : List (List Char)) :
    ∀ (cfg : ChunkConfig) (st : RotState) (q r : Nat),
      0 < cfg.maxWordsPerChunk → InvRun cfg st q r →
      ∃ st' q' r', processWords cfg st ws = Except.ok st' ∧ InvRun cfg st' q' r' ∧
        q' * cfg.maxWordsPerChunk + r'
          = q * cfg.maxWordsPerChunk + r + ws.length := by
  induction ws with
  | nil =>
    intro cfg st q r hT h
    exact ⟨st, q, r, rfl, h, by simp⟩
  | cons w ws ih =>
    intro cfg st q r hT h
    obtain ⟨st1, hw, hinv⟩ := processWord_step cfg st q r w hT h
    by_cases hr : r = cfg.maxWordsPerChunk
    · rw [if_pos hr] at hinv
      obtain ⟨st', q', r', hws, h', harith⟩ := ih cfg st1 (q + 1) 1 hT hinv
      refine ⟨st', q', r', ?_, h', ?_⟩
      · rw [processWords_cons_ok cfg st w ws st1 hw]
        exact hws
      · rw [harith, hr]
        simp [List.length_cons]
        ring
    · rw [if_neg hr] at hinv
      obtain ⟨st', q', r', hws, h', harith⟩ := ih cfg st1 q (r + 1) hT hinv
      refine ⟨st', q', r', ?_, h', ?_⟩
      · rw [processWords_cons_ok cfg st w ws st1 hw]
        exact hws
      · rw [harith]
        simp [List.length_cons]
        ring

theorem closeCurrentChunk_open (cfg : ChunkConfig) (st : RotState)
    (hOpen : st.outputStreamState = ChunkOutputStreamState.Open)
    (hLive : st.outputStream = true) :
    closeCurrentChunk cfg st =
      { st with outputStreamState := ChunkOutputStreamState.Closed,
                files := modifyLast
                  (fun fl => { fl with writes := fl.writes ++ [eol] }) st.files,
                outputStream := false } := by
  simp [closeCurrentChunk, hOpen, hLive]

theorem closeCurrentChunk_notOpen (cfg : ChunkConfig) (st : RotState)
    (h : ¬st.outputStreamState = ChunkOutputStreamState.Open) :
    closeCurrentChunk cfg st = st := by
  simp [closeCurrentChunk, h]

theorem ceil_helper (T q r : Nat) (hT : 0 < T) (h1 : 1 ≤ r) (h2 : r ≤ T) :
    (q * T + r + T - 1) / T = q + 1 := by
  have hlin : ∀ A : Nat, A + r + T - 1 = (r - 1) + (A + T) := by
    intro A
    omega
  have hkey : q * T + r + T - 1 = (r - 1) + T * (q + 1) := by
    rw [hlin (q * T)]
    have : q * T + T = T * (q + 1) := by ring
    rw [this]
  rw [hkey, Nat.add_mul_div_left _ _ hT, Nat.div_eq_of_lt (by omega)]
  omega

theorem mod_helper (T q r : Nat) (_hT : 0 < T) (h1 : 1 ≤ r) (h2 : r ≤ T) :
    (if (q * T + r) % T = 0 then T else (q * T + r) % T) = r := by
  rw [Nat.mul_comm, Nat.mul_add_mod]
  by_cases hr : r = T
  · rw [hr]
    simp
  · rw [Nat.mod_eq_of_lt (lt_of_le_of_ne h2 hr), if_neg (by omega)]

/-- C2: Word-count exactness.  For every run whose input tokenizes to `N`
tokens with threshold `T` (validated positive), the rotator creates exactly
`⌈N / T⌉` chunk files — `(N + T - 1) / T`, which is `0` when `N = 0` —
every chunk file except possibly the last holds exactly `T` tokens, the
last holds `N mod T` tokens (or `T` when `T` divides `N`), and no chunk
file is ever empty. -/
theorem chunk_word_count_exactness (cfg : ChunkConfig) (fsys : FileSystem)
    (frags : List (List Char))
    (hT : 0 < cfg.maxWordsPerChunk)
    (hNB : cfg.outputPath ∉ fsys.blocked) :
    ∃ st, runChunkStream cfg fsys frags = Except.ok st ∧
      st.files.length
        = ((runTokens splitWs frags).length + cfg.maxWordsPerChunk - 1)
            / cfg.maxWordsPerChunk ∧
      (∀ f ∈ st.files.dropLast, f.tokens.length = cfg.maxWordsPerChunk) ∧
      (∀ f, st.files.getLast? = some f →
        f.tokens.length =
          if (runTokens splitWs frags).length % cfg.maxWordsPerChunk = 0
          then cfg.maxWordsPerChunk
          else (runTokens splitWs frags).length % cfg.maxWordsPerChunk) ∧
      (∀ f ∈ st.files, 0 < f.tokens.length) := by
  cases hws : runTokens splitWs frags with
  | nil =>
    refine ⟨{ initState fsys with
        bytesProcessed := (frags.map List.length).sum }, ?_, ?_, ?_, ?_, ?_⟩
    · simp only [runChunkStream, hws, processWords]
      rw [closeCurrentChunk_notOpen cfg _
        (fun h => ChunkOutputStreamState.noConfusion h)]
    · have h0 : (([] : List (List Char)).length + cfg.maxWordsPerChunk - 1)
          / cfg.maxWordsPerChunk = 0 := by
        apply Nat.div_eq_of_lt
        simp
        omega
      rw [h0]
      simp [initState]
    · intro f hf
      exact absurd hf (by simp [initState])
    · intro f hf
      exact absurd hf (by simp [initState])
    · intro f hf
      exact absurd hf (by simp [initState])
  | cons w ws =>
    obtain ⟨st1, hw1, hinv1⟩ := processWord_first cfg
      ({ initState fsys with bytesProcessed := (frags.map List.length).sum })
      w hT rfl hNB rfl rfl rfl
    obtain ⟨st', q', r', hws', hinv', harith⟩ :=
      processWords_inv ws cfg st1 0 1 hT hinv1
    have hrun : runChunkStream cfg fsys frags
        = Except.ok (closeCurrentChunk cfg st') := by
      simp only [runChunkStream, hws]
      rw [processWords_cons_ok cfg _ w ws st1 hw1, hws']
    have hcl := closeCurrentChunk_open cfg st' hinv'.stateOpen hinv'.streamLive
    have hsizes : (closeCurrentChunk cfg st').files.map
        (fun (f : ChunkFile) => f.tokens.length)
        = List.replicate q' cfg.maxWordsPerChunk ++ [r'] := by
      rw [hcl]
      show (modifyLast (fun fl => { fl with writes := fl.writes ++ [eol] })
        st'.files).map (fun (f : ChunkFile) => f.tokens.length) = _
      rw [modifyLast_map_tokens (fun fl => { fl with writes := fl.writes ++ [eol] })
        (fun x => rfl)]
      exact hinv'.sizes
    have hN : (w :: ws).length = q' * cfg.maxWordsPerChunk + r' := by
      rw [harith]
      simp [List.length_cons]
      omega
    rcases List.eq_nil_or_concat' (closeCurrentChunk cfg st').files with
      hnil | ⟨front, lastf, hdec⟩
    · rw [hnil] at hsizes
      exact absurd hsizes.symm (by simp)
    rw [hdec, List.map_append] at hsizes
    obtain ⟨hfront, hlastEq⟩ := concat_inj hsizes
    have hlast : lastf.tokens.length = r' := by simpa using hlastEq
    have hfrontLen : front.length = q' := by
      have := congrArg List.length hfront
      simpa using this
    refine ⟨closeCurrentChunk cfg st', hrun, ?_, ?_, ?_, ?_⟩
    · rw [hdec, hN]
      simp only [List.length_append, List.length_cons, List.length_nil, hfrontLen]
      exact (ceil_helper cfg.maxWordsPerChunk q' r' hT hinv'.rpos hinv'.rle).symm
    · intro f hf
      rw [hdec, List.dropLast_concat] at hf
      have : f.tokens.length ∈ front.map (fun (f : ChunkFile) => f.tokens.length) :=
        List.mem_map_of_mem _ hf
      rw [hfront] at this
      exact List.eq_of_mem_replicate this
    · intro f hf
      rw [hdec, List.getLast?_concat] at hf
      have hfl : f = lastf := by
        injection hf.symm
      rw [hN, mod_helper cfg.maxWordsPerChunk q' r' hT hinv'.rpos hinv'.rle,
        hfl, hlast]
    · intro f hf
      rw [hdec] at hf
      rcases List.mem_append.mp hf with h1 | h2
      · have : f.tokens.length ∈ front.map (fun (f : ChunkFile) => f.tokens.length) :=
          List.mem_map_of_mem _ h1
        rw [hfront] at this
        rw [List.eq_of_mem_replicate this]
        exact hT
      · have : f = lastf := by simpa using h2
        rw [this, hlast]
        exact hinv'.rpos

/-- A concrete configuration used by witnesses: threshold `T`, no
callbacks. -/
def exCfg (T : Nat) : ChunkConfig :=
  { outputPath := "out", maxWordsPerChunk := T, fileStem := "chunk",
    fileExt := ".txt", outputDelimiter := [' '],
    onStreamOpen := none, onStreamClose := none, onProgress := none,
    onStats := none }

/-- A concrete filesystem with no entries. -/
def exFs : FileSystem := { dirs := [], blocked := [] }

theorem chunk_word_count_exactness_witness :
    ∃ st, runChunkStream (exCfg 3) exFs
        [String.toList "one two three four five six seven"] = Except.ok st ∧
      st.files.length
        = ((runTokens splitWs
              [String.toList "one two three four five six seven"]).length
            + (exCfg 3).maxWordsPerChunk - 1) / (exCfg 3).maxWordsPerChunk ∧
      (∀ f ∈ st.files.dropLast, f.tokens.length = (exCfg 3).maxWordsPerChunk) ∧
      (∀ f, st.files.getLast? = some f →
        f.tokens.length =
          if (runTokens splitWs
                [String.toList "one two three four five six seven"]).length
              % (exCfg 3).maxWordsPerChunk = 0
          then (exCfg 3).maxWordsPerChunk
          else (runTokens splitWs
                [String.toList "one two three four five six seven"]).length
              % (exCfg 3).maxWordsPerChunk) ∧
      (∀ f ∈ st.files, 0 < f.tokens.length) :=
  chunk_word_count_exactness (exCfg 3) exFs
    [String.toList "one two three four five six seven"] (by decide) (by decide)

theorem processWord_stripCallbacks (cfg : ChunkConfig) (st : RotState)
    (w : List Char) :
    processWord (stripCallbacks cfg) st w = processWord cfg st w := rfl

theorem processWords_stripCallbacks (cfg : ChunkConfig) (ws : List (List Char)) :
    ∀ st : RotState,
      processWords (stripCallbacks cfg) st ws = processWords cfg st ws := by
  induction ws with
  | nil => intro st; rfl
  | cons w ws ih =>
    intro st
    simp only [processWords, processWord_stripCallbacks]
    cases h : processWord cfg st w with
    | error e => rfl
    | ok st1 => exact ih st1

/-- C6: Callback isolation.  For every configuration — including one whose
lifecycle callbacks (on-chunk-open, on-chunk-close, on-progress, on-stats)
throw on every invocation — the run produces exactly the same outcome
(the same files with the same contents, the same counters, and the same
success or failure) as the identical run with no callbacks at all: every
callback invocation in the source is wrapped in a try/catch that discards
the error, so callbacks can never affect the pipeline. -/
theorem callback_isolation (cfg : ChunkConfig) (fsys : FileSystem)
    (frags : List (List Char)) :
    runChunkStream cfg fsys frags = runChunkStream (stripCallbacks cfg) fsys frags := by
  simp only [runChunkStream, processWords_stripCallbacks]
  have hc : ∀ st : RotState,
      closeCurrentChunk (stripCallbacks cfg) st = closeCurrentChunk cfg st :=
    fun st => rfl
  simp only [hc]

theorem processWords_cons_err (cfg : ChunkConfig) (st : RotState) (w : List Char)
    (ws : List (List Char)) (e : RunError × RotState)
    (h1 : processWord cfg st w = Except.error e) :
    processWords cfg st (w :: ws) = Except.error e := by
  simp only [processWords, h1]

theorem processWord_uninit_fail (cfg : ChunkConfig) (st : RotState) (w : List Char)
    (hU : st.outputStreamState = ChunkOutputStreamState.Uninit)
    (hdirs : cfg.outputPath ∉ st.fsys.dirs)
    (hblk : cfg.outputPath ∈ st.fsys.blocked) :
    processWord cfg st w = Except.error
      (RunError.outputDirectoryError cfg.outputPath,
       { st with outputStreamState := ChunkOutputStreamState.Open }) := by
  have hcond : ¬(st.outputStreamState = ChunkOutputStreamState.Open ∧
      0 < st.wordCount ∧ st.wordCount % cfg.maxWordsPerChunk = 0) := by
    intro hAnd
    rw [hU] at hAnd
    exact absurd hAnd.1 (by decide)
  rw [processWord_noRotateCond cfg st w hcond]
  have hmk : mkdirRecursive st.fsys cfg.outputPath = Except.error () := by
    unfold mkdirRecursive
    rw [if_neg hdirs, if_pos hblk]
  simp only [processWordPost, openOutputStream, makeOutputDirectorySync,
    if_pos hU, hmk]

theorem runChunkStream_dirFail (cfg : ChunkConfig) (fsys : FileSystem)
    (frags : List (List Char)) (w : List Char) (ws : List (List Char))
    (hws : runTokens splitWs frags = w :: ws)
    (hdirs : cfg.outputPath ∉ fsys.dirs)
    (hblk : cfg.outputPath ∈ fsys.blocked) :
    runChunkStream cfg fsys frags = Except.error
      (RunError.outputDirectoryError cfg.outputPath,
       { initState fsys with
         bytesProcessed := (frags.map List.length).sum,
         outputStreamState := ChunkOutputStreamState.Open }) := by
  simp only [runChunkStream, hws]
  rw [processWords_cons_err cfg _ w ws _
    (processWord_uninit_fail cfg _ w rfl hdirs hblk)]

/-- C7: Directory creation.  First: `makeOutputDirectorySync` succeeds
without changing anything when the output directory already exists
(`mkdirSync` with `recursive: true` is idempotent).  Second: when directory
creation fails (a non-directory entry blocks the path), the run aborts with
the distinguishable `OutputDirectoryError` kind, and no chunk file exists —
so no bytes were written to any chunk file: the directory is created
before the file, which is created before any write. -/
theorem directory_creation :
    (∀ (cfg : ChunkConfig) (st : RotState), cfg.outputPath ∈ st.fsys.dirs →
      makeOutputDirectorySync cfg st = Except.ok st) ∧
    (∀ (cfg : ChunkConfig) (fsys : FileSystem) (frags : List (List Char)),
      cfg.outputPath ∉ fsys.dirs → cfg.outputPath ∈ fsys.blocked →
      runTokens splitWs frags ≠ [] →
      ∃ st, runChunkStream cfg fsys frags
          = Except.error (RunError.outputDirectoryError cfg.outputPath, st) ∧
        st.files = []) := by
  constructor
  · intro cfg st hmem
    unfold makeOutputDirectorySync mkdirRecursive
    rw [if_pos hmem]
  · intro cfg fsys frags hdirs hblk hne
    cases hws : runTokens splitWs frags with
    | nil => exact absurd hws hne
    | cons w ws =>
      exact ⟨_, runChunkStream_dirFail cfg fsys frags w ws hws hdirs hblk, rfl⟩

theorem directory_creation_witness :
    makeOutputDirectorySync (exCfg 3) (initState { dirs := ["out"], blocked := [] })
        = Except.ok (initState { dirs := ["out"], blocked := [] }) ∧
    ∃ st, runChunkStream (exCfg 3) { dirs := [], blocked := ["out"] } [['a']]
        = Except.error (RunError.outputDirectoryError (exCfg 3).outputPath, st) ∧
      st.files = [] :=
  ⟨directory_creation.1 (exCfg 3) (initState { dirs := ["out"], blocked := [] })
      (by decide),
   directory_creation.2 (exCfg 3) { dirs := [], blocked := ["out"] } [['a']]
      (by decide) (by decide) (by decide)⟩

theorem rotateOutputStream_fields (cfg : ChunkConfig) (st : RotState) :
    (rotateOutputStream cfg st).outputStreamState
        = ChunkOutputStreamState.Uninit ∧
    (rotateOutputStream cfg st).wordCount = st.wordCount := by
  by_cases hos : st.outputStream <;> simp [rotateOutputStream, hos]

theorem openOutputStream_ok_fields (cfg : ChunkConfig) (st1 s : RotState)
    (h : openOutputStream cfg st1 = Except.ok s) :
    s.wordCount = st1.wordCount := by
  unfold openOutputStream at h
  by_cases hU : st1.outputStreamState = ChunkOutputStreamState.Uninit
  · rw [if_pos hU] at h
    simp only [makeOutputDirectorySync] at h
    cases hm : mkdirRecursive st1.fsys cfg.outputPath with
    | error u =>
      simp only [hm] at h
      exact absurd h (by simp)
    | ok f =>
      simp only [hm] at h
      have := (Except.ok.injEq _ _).mp h.symm
      rw [this]
  · rw [if_neg hU] at h
    have := (Except.ok.injEq _ _).mp h.symm
    rw [this]

theorem processWordPost_ok_oss (cfg : ChunkConfig) (st1 : RotState)
    (w : List Char) (st' : RotState)
    (hok : processWordPost cfg st1 w = Except.ok st') :
    st'.wordCount = st1.wordCount + 1 ∧
    ((st1.outputStreamState = ChunkOutputStreamState.Uninit ∧
        st'.outputStreamState = ChunkOutputStreamState.Open) ∨
     (¬st1.outputStreamState = ChunkOutputStreamState.Uninit ∧
        st'.outputStreamState = st1.outputStreamState)) := by
  by_cases hU : st1.outputStreamState = ChunkOutputStreamState.Uninit
  · cases ho : openOutputStream cfg st1 with
    | error e =>
      simp only [processWordPost, if_pos hU, ho] at hok
      exact absurd hok (by simp)
    | ok s =>
      have hsw := openOutputStream_ok_fields cfg st1 s ho
      simp only [processWordPost, if_pos hU, ho] at hok
      have hst' := ((Except.ok.injEq _ _).mp hok).symm
      by_cases hos : s.outputStream
      · rw [hst']
        refine ⟨?_, Or.inl ⟨hU, ?_⟩⟩ <;> simp [hos, writeWord, hsw]
      · rw [hst']
        refine ⟨?_, Or.inl ⟨hU, ?_⟩⟩ <;> simp [hos, writeWord, hsw]
  · simp only [processWordPost, if_neg hU] at hok
    have hst' := ((Except.ok.injEq _ _).mp hok).symm
    by_cases hos : st1.outputStream
    · rw [hst']
      refine ⟨?_, Or.inr ⟨hU, ?_⟩⟩ <;> simp [hos, writeWord]
    · rw [hst']
      refine ⟨?_, Or.inr ⟨hU, ?_⟩⟩ <;> simp [hos, writeWord]

/-- C4 amended: rotation is deferred to the next token.  First part: in a
run, processing any token while the chunk state is Open leaves the state
Open when `processWord` returns (never Uninit — the source only resets the
state inside the rotation that a later token triggers) and increments the
word counter.  Second part: when a token arrives while the state is Open
and the counter is a positive multiple of the threshold, rotation is
performed at the start of processing that arriving token — the previous
file is completed with its trailing terminator, the chunk index is
incremented, and a fresh chunk file is lazily created holding exactly the
arriving token. -/
theorem rotation_deferred (cfg : ChunkConfig) :
    (∀ (st : RotState) (w : List Char) (st' : RotState),
      st.outputStreamState = ChunkOutputStreamState.Open →
      processWord cfg st w = Except.ok st' →
      st'.outputStreamState = ChunkOutputStreamState.Open ∧
        st'.wordCount = st.wordCount + 1) ∧
    (∀ (st : RotState) (w : List Char),
      st.outputStreamState = ChunkOutputStreamState.Open →
      st.outputStream = true →
      0 < st.wordCount → st.wordCount % cfg.maxWordsPerChunk = 0 →
      cfg.outputPath ∉ st.fsys.blocked →
      ∃ f', processWord cfg st w = Except.ok
        { st with
          outputStreamState := ChunkOutputStreamState.Open,
          outputStream := true,
          fsys := f',
          chunkCount := st.chunkCount + 1,
          files := modifyLast (fun fl => { fl with writes := fl.writes ++ [eol] })
              st.files ++ [({ writes := [w], tokens := [w] } : ChunkFile)],
          wordCount := st.wordCount + 1 }) := by
  constructor
  · intro st w st' hOpen hok
    by_cases hc : st.outputStreamState = ChunkOutputStreamState.Open ∧
        0 < st.wordCount ∧ st.wordCount % cfg.maxWordsPerChunk = 0
    · rw [processWord_rotateCond cfg st w hc] at hok
      obtain ⟨hrot1, hrot2⟩ := rotateOutputStream_fields cfg st
      obtain ⟨hwc, hd⟩ := processWordPost_ok_oss cfg _ w st' hok
      refine ⟨?_, by rw [hwc, hrot2]⟩
      rcases hd with ⟨_, h2⟩ | ⟨h1, _⟩
      · exact h2
      · exact absurd hrot1 h1
    · rw [processWord_noRotateCond cfg st w hc] at hok
      obtain ⟨hwc, hd⟩ := processWordPost_ok_oss cfg st w st' hok
      refine ⟨?_, hwc⟩
      rcases hd with ⟨h1, _⟩ | ⟨_, h2⟩
      · rw [hOpen] at h1
        exact absurd h1 (by decide)
      · rw [h2, hOpen]
  · intro st w hOpen hLive hpos hmod hNB
    rw [processWord_rotateCond cfg st w ⟨hOpen, hpos, hmod⟩,
      rotateOutputStream_live cfg st hLive]
    obtain ⟨f', hbl, hpost⟩ := processWordPost_uninit cfg
      ({ st with
          files := modifyLast (fun fl => { fl with writes := fl.writes ++ [eol] })
            st.files,
          outputStream := false,
          chunkCount := st.chunkCount + 1,
          outputStreamState := ChunkOutputStreamState.Uninit }) w rfl hNB hmod
    rw [hpost]
    exact ⟨f', rfl⟩

/-- Projection of a run result: the chunk state when the run succeeded. -/
def resultStreamState (r : Except (RunError × RotState) RotState) :
    Option ChunkOutputStreamState :=
  match r with
  | Except.ok st => some st.outputStreamState
  | Except.error _ => none

/-- C4 counterexample: with threshold 2, after processing the second token
— whose write brings the word counter to 2, a positive multiple of the
threshold — the chunk state is Open, not Uninit: the source performs the
rotation at the start of the NEXT `processWord` call, so the state is not
reset when the triggering token's `processWord` step returns. -/
theorem rotation_trigger_counterexample :
    resultStreamState (processWords (exCfg 2) (initState exFs) [['a'], ['b']])
        = some ChunkOutputStreamState.Open ∧
    some ChunkOutputStreamState.Open ≠ some ChunkOutputStreamState.Uninit :=
  ⟨by decide, by decide⟩

/-- A concrete mid-run state after one token (threshold 2). -/
def stOpenW : RotState :=
  { wordCount := 1, chunkCount := 0,
    outputStreamState := ChunkOutputStreamState.Open, outputStream := true,
    files := [{ writes := [['a']], tokens := [['a']] }],
    fsys := { dirs := ["out"], blocked := [] }, bytesProcessed := 0 }

/-- The state after the second token (threshold 2): the counter is at the
threshold, yet the chunk is still Open. -/
def stOpenFull : RotState :=
  { wordCount := 2, chunkCount := 0,
    outputStreamState := ChunkOutputStreamState.Open, outputStream := true,
    files := [{ writes := [['a'], [' ', 'b']], tokens := [['a'], ['b']] }],
    fsys := { dirs := ["out"], blocked := [] }, bytesProcessed := 0 }

theorem rotation_deferred_witness :
    (stOpenFull.outputStreamState = ChunkOutputStreamState.Open ∧
      stOpenFull.wordCount = stOpenW.wordCount + 1) ∧
    ∃ f', processWord (exCfg 2) stOpenFull ['c'] = Except.ok
      { stOpenFull with
        outputStreamState := ChunkOutputStreamState.Open,
        outputStream := true,
        fsys := f',
        chunkCount := stOpenFull.chunkCount + 1,
        files := modifyLast (fun fl => { fl with writes := fl.writes ++ [eol] })
            stOpenFull.files ++ [({ writes := [['c']], tokens := [['c']] } : ChunkFile)],
        wordCount := stOpenFull.wordCount + 1 } :=
  ⟨(rotation_deferred (exCfg 2)).1 stOpenW ['b'] stOpenFull (by decide) (by decide),
   (rotation_deferred (exCfg 2)).2 stOpenFull ['c'] (by decide) (by decide)
     (by decide) (by decide) (by decide)⟩

/-- Projection of a run result: the stats snapshot and the number of chunk
files actually created, when the run succeeded. -/
def resultStats (r : Except (RunError × RotState) RotState) :
    Option (StreamStats × Nat) :=
  match r with
  | Except.ok st => some (getStats st, st.files.length)
  | Except.error _ => none

/-- C9 (evaluation of the code at the failing input): one token "a" with
threshold 3.  The run creates exactly one chunk file — `⌈1 / 3⌉ = 1` — and
`getStats` correctly reports `wordsProcessed = 1` and `bytesProcessed = 1`,
but reports `chunksCreated = 0`: `chunkCount` is incremented only inside
`rotateOutputStream`, and `closeCurrentChunk` (which finalizes the last
chunk) never increments it, so the snapshot undercounts the chunks created
by one on every run whose final chunk was closed at end of input. -/
theorem stats_chunk_count_evaluation :
    resultStats (runChunkStream (exCfg 3) exFs [['a']])
        = some ({ bytesProcessed := 1, chunksCreated := 0,
                  wordsProcessed := 1 }, 1) := by
  decide

/-- C10: Output-delimiter inference.  When `options.outputDelimiter` is not
supplied, the constructor infers the output delimiter from the input
delimiter regex's source string by a fixed table — the regex source
`\s+` (backslash, `s`, `+`) yields a space, `,` yields `,`, `;` yields
`;`, the source `\t` (backslash, `t`) yields a tab character, a literal
newline source yields a newline, the source `\|` yields `|`, and every
other source yields a space. -/
theorem output_delimiter_inference :
    constructorOutputDelimiter none "\\s+" = " " ∧
    constructorOutputDelimiter none "," = "," ∧
    constructorOutputDelimiter none ";" = ";" ∧
    constructorOutputDelimiter none "\\t" = "\t" ∧
    constructorOutputDelimiter none "\n" = "\n" ∧
    constructorOutputDelimiter none "\\|" = "|" ∧
    ∀ src : String,
      src ∉ (["\\s+", ",", ";", "\\t", "\n", "\\|"] : List String) →
      constructorOutputDelimiter none src = " " := by
  refine ⟨rfl, rfl, rfl, rfl, rfl, rfl, ?_⟩
  intro src hsrc
  simp only [List.mem_cons, List.not_mem_nil, or_false, not_or] at hsrc
  obtain ⟨h1, h2, h3, h4, h5, h6⟩ := hsrc
  simp [constructorOutputDelimiter, inferOutputDelimiter, h1, h2, h3, h4, h5, h6]

theorem output_delimiter_inference_witness :
    "abc" ∉ (["\\s+", ",", ";", "\\t", "\n", "\\|"] : List String) ∧
    constructorOutputDelimiter none "abc" = " " :=
  ⟨by decide, output_delimiter_inference.2.2.2.2.2.2 "abc" (by decide)⟩
